import Mathlib

/-!
Verification development for a concurrent in-process key-value store
(src/main.cpp): a fixed array of shards (each an `std::unordered_map`
guarded by a reader/writer lock), a blocking FIFO work queue with a
cooperative stop flag, and a fixed pool of worker threads that drain the
queue and apply requests to the store.

The embedding is shallow and sequentialised at the granularity the
program's locks make atomic: each queue operation (mutex-protected) and
each whole store operation (shard-lock-protected) is one atomic step, and
concurrency is modelled by an explicit interleaving semantics over a
system state (queue, store, per-worker status) driven by a scheduler's
action list.
-/

/-- OpType from src/main.cpp:14-18: the three request kinds. -/
inductive OpType where
  | GET
  | SET
  | DEL
deriving DecidableEq, Repr

/-- Request from src/main.cpp:20-24: operation descriptor; `value` is
meaningful only for SET. -/
structure Request where
  type : OpType
  key : String
  value : String
deriving DecidableEq, Repr

/-- BlockingQueue state, src/main.cpp:28-64: the pending items in FIFO
order (head = next to pop) together with the `stopped` flag. The mutex
and condition variable serialise the three member functions, so each is
modelled as one atomic transition on this state. -/
structure BQueue (T : Type) where
  items : List T
  stopped : Bool
deriving DecidableEq, Repr

namespace BQueue

/-- BlockingQueue::push, src/main.cpp:31-37: appends at the tail
unconditionally (there is no capacity bound and no check of `stopped`). -/
def push (q : BQueue T) (x : T) : BQueue T :=
  { q with items := q.items ++ [x] }

/-- BlockingQueue::pop, src/main.cpp:39-49. The wait predicate is
`stopped || !q.empty()`; the result is `none` when the call blocks
(predicate false: queue empty and not stopped), `some (none, q)` for the
stream-end return `false` (stopped and empty), and `some (some x, q')`
when the head `x` is removed and returned. -/
def pop (q : BQueue T) : Option (Option T × BQueue T) :=
  match q.items, q.stopped with
  | [], false => none
  | [], true => some (none, q)
  | x :: rest, st => some (some x, ⟨rest, st⟩)

/-- BlockingQueue::shutdown, src/main.cpp:51-57: sets the stopped flag
(and wakes all waiters, which the interleaving model renders by the pop
transitions becoming enabled). -/
def shutdown (q : BQueue T) : BQueue T :=
  { q with stopped := true }

end BQueue

/-- Iterated pop: performs `n` pops, collecting the returned items in
order; stops early if a pop blocks or signals stream-end. -/
def popSeq : Nat → BQueue T → List T × BQueue T
  | 0, q => ([], q)
  | n + 1, q =>
    match BQueue.pop q with
    | some (some x, q') =>
      let p := popSeq n q'
      (x :: p.1, p.2)
    | _ => ([], q)

/-- An action on the queue alone: a producer push, a consumer pop, or the
stop signal. -/
inductive QAct (T : Type) where
  | push (x : T)
  | pop
  | stop
deriving DecidableEq, Repr

/-- One queue action; a blocked or stream-end pop leaves the state
unchanged and yields no item. -/
def qStep (q : BQueue T) : QAct T → BQueue T × Option T
  | .push x => (q.push x, none)
  | .stop => (q.shutdown, none)
  | .pop =>
    match BQueue.pop q with
    | some (some x, q') => (q', some x)
    | _ => (q, none)

/-- Run a list of queue actions, collecting the popped items in the order
they were returned. -/
def runQ : List (QAct T) → BQueue T → BQueue T × List T
  | [], q => (q, [])
  | a :: rest, q =>
    let s := qStep q a
    let r := runQ rest s.1
    (r.1, match s.2 with | some x => x :: r.2 | none => r.2)

/-- The items pushed by an action list, in push order. -/
def pushesOf : List (QAct T) → List T
  | [] => []
  | .push x :: rest => x :: pushesOf rest
  | .pop :: rest => pushesOf rest
  | .stop :: rest => pushesOf rest

/-- Shard contents, src/main.cpp:88-89: the
`std::unordered_map<std::string, std::string> data` of one shard,
modelled as an association list (the map is unordered, so the list order
carries no meaning; `set` keeps keys unique). -/
abbrev Shard := List (String × String)

/-- Shard::get, src/main.cpp:70-76: the mapped value if the key is
present, else the absent result `none` (std::nullopt). Taken under a
shared lock; it does not modify the shard. -/
def Shard.get : Shard → String → Option String
  | [], _ => none
  | (k', v) :: rest, k => if k' = k then some v else Shard.get rest k

/-- Erasure of every binding of `k`, modelling `data.erase(key)` in
Shard::del, src/main.cpp:83-86 (keys are unique in an unordered_map, so
at most one binding exists; erasing all occurrences is the same map). -/
def Shard.del : Shard → String → Shard
  | [], _ => []
  | (k', v) :: rest, k =>
    if k' = k then Shard.del rest k else (k', v) :: Shard.del rest k

/-- Shard::set, src/main.cpp:78-81: `data[key] = value` inserts or
overwrites the binding of `key`; as a finite map this replaces any
existing binding of `key` by `value`. -/
def Shard.set (d : Shard) (k v : String) : Shard :=
  (k, v) :: Shard.del d k

theorem Shard.get_set_self (d : Shard) (k v : String) :
    Shard.get (Shard.set d k v) k = some v := by
  simp [Shard.set, Shard.get]

theorem Shard.get_del_self (d : Shard) (k : String) :
    Shard.get (Shard.del d k) k = none := by
  induction d with
  | nil => rfl
  | cons p rest ih =>
    obtain ⟨k', v⟩ := p
    by_cases h : k' = k
    · simp [Shard.del, h, ih]
    · simp [Shard.del, h, Shard.get, ih]

theorem Shard.get_del_ne (d : Shard) (k k' : String) (h : k' ≠ k) :
    Shard.get (Shard.del d k) k' = Shard.get d k' := by
  induction d with
  | nil => rfl
  | cons p rest ih =>
    obtain ⟨k₀, v₀⟩ := p
    by_cases h₀ : k₀ = k
    · simp [Shard.del, h₀, Shard.get, Ne.symm h, ih]
    · simp [Shard.del, h₀, Shard.get, ih]

theorem Shard.get_set_ne (d : Shard) (k v : String) (k' : String) (h : k' ≠ k) :
    Shard.get (Shard.set d k v) k' = Shard.get d k' := by
  have hne : k ≠ k' := fun hc => h hc.symm
  simp [Shard.set, Shard.get, hne, Shard.get_del_ne d k k' h]

theorem Shard.del_of_get_none (d : Shard) (k : String)
    (h : Shard.get d k = none) : Shard.del d k = d := by
  induction d with
  | nil => rfl
  | cons p rest ih =>
    obtain ⟨k₀, v₀⟩ := p
    by_cases h₀ : k₀ = k
    · simp [Shard.get, h₀] at h
    · simp [Shard.get, h₀] at h
      simp [Shard.del, h₀, ih h]

theorem listGetD_set_self (l : List α) (i : Nat) (a d : α) (h : i < l.length) :
    (l.set i a).getD i d = a := by
  induction l generalizing i with
  | nil => simp at h
  | cons x rest ih =>
    cases i with
    | zero => rfl
    | succ j => exact ih j (by simpa using h)

theorem listGetD_set_ne (l : List α) (i j : Nat) (a d : α) (h : i ≠ j) :
    (l.set i a).getD j d = l.getD j d := by
  induction l generalizing i j with
  | nil => simp [List.set]
  | cons x rest ih =>
    cases i with
    | zero =>
      cases j with
      | zero => exact absurd rfl h
      | succ j' => rfl
    | succ i' =>
      cases j with
      | zero => rfl
      | succ j' => exact ih i' j' (fun hc => h (by rw [hc]))

theorem listSet_getD_self (l : List α) (i : Nat) (d : α) (h : i < l.length) :
    l.set i (l.getD i d) = l := by
  induction l generalizing i with
  | nil => simp at h
  | cons x rest ih =>
    cases i with
    | zero => rfl
    | succ j =>
      show x :: rest.set j (rest.getD j d) = x :: rest
      rw [ih j (by simpa using h)]

theorem listGetD_replicate (x : α) (n i : Nat) :
    (List.replicate n x).getD i x = x := by
  induction n generalizing i with
  | zero => cases i <;> rfl
  | succ m ih =>
    cases i with
    | zero => rfl
    | succ j => exact ih j

/-- KVStore, src/main.cpp:95-118: a fixed vector of shards, sized once at
construction. The `std::hash<std::string>` function is
implementation-defined; the embedding is parameterised over an arbitrary
hash function `hash : String → Nat`, since only its determinism matters. -/
structure KVStore where
  shards : List Shard
deriving DecidableEq, Repr

/-- KVStore construction, src/main.cpp:97: `shardCount` empty shards. -/
def mkStore (n : Nat) : KVStore :=
  ⟨List.replicate n []⟩

/-- KVStore::shard routing, src/main.cpp:114-117:
`hash(key) % shards.size()`. -/
def KVStore.shardIndex (hash : String → Nat) (kv : KVStore) (k : String) : Nat :=
  hash k % kv.shards.length

/-- KVStore::get, src/main.cpp:99-101: delegate to the owning shard. -/
def KVStore.get (hash : String → Nat) (kv : KVStore) (k : String) : Option String :=
  Shard.get (kv.shards.getD (kv.shardIndex hash k) []) k

/-- KVStore::set, src/main.cpp:103-105: delegate to the owning shard. -/
def KVStore.set (hash : String → Nat) (kv : KVStore) (k v : String) : KVStore :=
  ⟨kv.shards.set (kv.shardIndex hash k)
    (Shard.set (kv.shards.getD (kv.shardIndex hash k) []) k v)⟩

/-- KVStore::del, src/main.cpp:107-109: delegate to the owning shard. -/
def KVStore.del (hash : String → Nat) (kv : KVStore) (k : String) : KVStore :=
  ⟨kv.shards.set (kv.shardIndex hash k)
    (Shard.del (kv.shards.getD (kv.shardIndex hash k) []) k)⟩

theorem KVStore.length_set (hash : String → Nat) (kv : KVStore) (k v : String) :
    (kv.set hash k v).shards.length = kv.shards.length := by
  simp [KVStore.set]

theorem KVStore.length_del (hash : String → Nat) (kv : KVStore) (k : String) :
    (kv.del hash k).shards.length = kv.shards.length := by
  simp [KVStore.del]

theorem KVStore.shardIndex_lt (hash : String → Nat) (kv : KVStore) (k : String)
    (h : 0 < kv.shards.length) : kv.shardIndex hash k < kv.shards.length :=
  Nat.mod_lt _ h

theorem KVStore.get_set_same_key (hash : String → Nat) (kv : KVStore) (k v : String)
    (h : 0 < kv.shards.length) : (kv.set hash k v).get hash k = some v := by
  simp only [KVStore.get, KVStore.set, KVStore.shardIndex, List.length_set]
  rw [listGetD_set_self _ _ _ _ (Nat.mod_lt _ h)]
  exact Shard.get_set_self _ k v

theorem KVStore.get_set_other_key (hash : String → Nat) (kv : KVStore) (k v k' : String)
    (h : 0 < kv.shards.length) (hne : k' ≠ k) :
    (kv.set hash k v).get hash k' = kv.get hash k' := by
  simp only [KVStore.get, KVStore.set, KVStore.shardIndex, List.length_set]
  by_cases hsame : hash k % kv.shards.length = hash k' % kv.shards.length
  · rw [← hsame, listGetD_set_self _ _ _ _ (Nat.mod_lt _ h)]
    rw [hsame]
    exact Shard.get_set_ne _ k v k' hne
  · rw [listGetD_set_ne _ _ _ _ _ hsame]

theorem KVStore.get_del_same_key (hash : String → Nat) (kv : KVStore) (k : String)
    (h : 0 < kv.shards.length) : (kv.del hash k).get hash k = none := by
  simp only [KVStore.get, KVStore.del, KVStore.shardIndex, List.length_set]
  rw [listGetD_set_self _ _ _ _ (Nat.mod_lt _ h)]
  exact Shard.get_del_self _ k

theorem KVStore.get_del_other_key (hash : String → Nat) (kv : KVStore) (k k' : String)
    (h : 0 < kv.shards.length) (hne : k' ≠ k) :
    (kv.del hash k).get hash k' = kv.get hash k' := by
  simp only [KVStore.get, KVStore.del, KVStore.shardIndex, List.length_set]
  by_cases hsame : hash k % kv.shards.length = hash k' % kv.shards.length
  · rw [← hsame, listGetD_set_self _ _ _ _ (Nat.mod_lt _ h)]
    rw [hsame]
    exact Shard.get_del_ne _ k k' hne
  · rw [listGetD_set_ne _ _ _ _ _ hsame]

theorem KVStore.del_absent_id (hash : String → Nat) (kv : KVStore) (k : String)
    (h : 0 < kv.shards.length) (hget : kv.get hash k = none) :
    kv.del hash k = kv := by
  obtain ⟨shards⟩ := kv
  simp only [KVStore.get, KVStore.shardIndex] at hget
  simp only [KVStore.del, KVStore.shardIndex, KVStore.mk.injEq]
  rw [Shard.del_of_get_none _ _ hget]
  exact listSet_getD_self shards _ [] (Nat.mod_lt _ h)

theorem KVStore.get_mkStore (hash : String → Nat) (n : Nat) (k : String) :
    (mkStore n).get hash k = none := by
  simp only [KVStore.get, mkStore, listGetD_replicate]
  rfl

/-- Result of one worker processing step for a single request
(ThreadPool::workerLoop, src/main.cpp:142-170): the store after the
operation and, for a GET, the value observed (`some none` records a GET
that observed the absent result; `none` means the request was not a GET
and produced no value). -/
def applyReq (hash : String → Nat) (kv : KVStore) (r : Request) :
    KVStore × Option (Option String) :=
  match r.type with
  | .GET => (kv, some (kv.get hash r.key))
  | .SET => (kv.set hash r.key r.value, none)
  | .DEL => (kv.del hash r.key, none)

/-- Sequential application of a request list to the store, collecting
each request's observation in order. -/
def runKV (hash : String → Nat) : List Request → KVStore → KVStore × List (Option (Option String))
  | [], kv => (kv, [])
  | r :: rest, kv =>
    let s := applyReq hash kv r
    let t := runKV hash rest s.1
    (t.1, s.2 :: t.2)

/-- Modelled from the spec: a single flat key-to-value map, the
reference model against which the sharded KVStore is compared (the
sharded store should be observationally identical to one flat map). -/
abbrev FlatStore := List (String × String)

/-- Modelled from the spec: lookup in the flat map; absent keys give
`none`. -/
def flatGet : FlatStore → String → Option String
  | [], _ => none
  | (k', v) :: rest, k => if k' = k then some v else flatGet rest k

/-- Modelled from the spec: removal of a key from the flat map; no-op if
absent. -/
def flatDel : FlatStore → String → FlatStore
  | [], _ => []
  | (k', v) :: rest, k =>
    if k' = k then flatDel rest k else (k', v) :: flatDel rest k

/-- Modelled from the spec: insert-or-overwrite in the flat map. -/
def flatSet (m : FlatStore) (k v : String) : FlatStore :=
  (k, v) :: flatDel m k

/-- Modelled from the spec: one operation against the flat map, with the
same observation convention as `applyReq`. -/
def applyFlat (m : FlatStore) (r : Request) : FlatStore × Option (Option String) :=
  match r.type with
  | .GET => (m, some (flatGet m r.key))
  | .SET => (flatSet m r.key r.value, none)
  | .DEL => (flatDel m r.key, none)

/-- Modelled from the spec: sequential application of a request list to
the flat map. -/
def runFlat : List Request → FlatStore → FlatStore × List (Option (Option String))
  | [], m => (m, [])
  | r :: rest, m =>
    let s := applyFlat m r
    let t := runFlat rest s.1
    (t.1, s.2 :: t.2)

theorem flatGet_set_self (m : FlatStore) (k v : String) :
    flatGet (flatSet m k v) k = some v := by
  simp [flatSet, flatGet]

theorem flatGet_del_self (m : FlatStore) (k : String) :
    flatGet (flatDel m k) k = none := by
  induction m with
  | nil => rfl
  | cons p rest ih =>
    obtain ⟨k', v⟩ := p
    by_cases h : k' = k
    · simp [flatDel, h, ih]
    · simp [flatDel, h, flatGet, ih]

theorem flatGet_del_ne (m : FlatStore) (k k' : String) (h : k' ≠ k) :
    flatGet (flatDel m k) k' = flatGet m k' := by
  induction m with
  | nil => rfl
  | cons p rest ih =>
    obtain ⟨k₀, v₀⟩ := p
    by_cases h₀ : k₀ = k
    · simp [flatDel, h₀, flatGet, Ne.symm h, ih]
    · simp [flatDel, h₀, flatGet, ih]

theorem flatGet_set_ne (m : FlatStore) (k v k' : String) (h : k' ≠ k) :
    flatGet (flatSet m k v) k' = flatGet m k' := by
  have hne : k ≠ k' := fun hc => h hc.symm
  simp [flatSet, flatGet, hne, flatGet_del_ne m k k' h]

/-- The simulation relation for sharding transparency: the sharded store
is well-formed (at least one shard) and agrees with the flat map on every
key. -/
def StoreRel (hash : String → Nat) (kv : KVStore) (m : FlatStore) : Prop :=
  0 < kv.shards.length ∧ ∀ k : String, kv.get hash k = flatGet m k

theorem applyReq_rel (hash : String → Nat) (kv : KVStore) (m : FlatStore)
    (r : Request) (hrel : StoreRel hash kv m) :
    StoreRel hash (applyReq hash kv r).1 (applyFlat m r).1 ∧
      (applyReq hash kv r).2 = (applyFlat m r).2 := by
  obtain ⟨hpos, hagree⟩ := hrel
  cases htype : r.type with
  | GET =>
    refine ⟨⟨?_, ?_⟩, ?_⟩ <;> simp [applyReq, applyFlat, htype, hpos, hagree]
  | SET =>
    refine ⟨⟨?_, fun k => ?_⟩, ?_⟩
    · simpa [applyReq, htype, KVStore.length_set] using hpos
    · by_cases hk : k = r.key
      · subst hk
        simp [applyReq, applyFlat, htype, KVStore.get_set_same_key hash kv _ _ hpos,
          flatGet_set_self]
      · simp [applyReq, applyFlat, htype,
          KVStore.get_set_other_key hash kv _ _ k hpos hk, flatGet_set_ne m _ _ k hk,
          hagree]
    · simp [applyReq, applyFlat, htype]
  | DEL =>
    refine ⟨⟨?_, fun k => ?_⟩, ?_⟩
    · simpa [applyReq, htype, KVStore.length_del] using hpos
    · by_cases hk : k = r.key
      · subst hk
        simp [applyReq, applyFlat, htype, KVStore.get_del_same_key hash kv _ hpos,
          flatGet_del_self]
      · simp [applyReq, applyFlat, htype,
          KVStore.get_del_other_key hash kv _ k hpos hk, flatGet_del_ne m _ k hk,
          hagree]
    · simp [applyReq, applyFlat, htype]

theorem runKV_rel (hash : String → Nat) (ops : List Request) (kv : KVStore)
    (m : FlatStore) (hrel : StoreRel hash kv m) :
    StoreRel hash (runKV hash ops kv).1 (runFlat ops m).1 ∧
      (runKV hash ops kv).2 = (runFlat ops m).2 := by
  induction ops generalizing kv m with
  | nil => exact ⟨hrel, rfl⟩
  | cons r rest ih =>
    obtain ⟨hstep, hres⟩ := applyReq_rel hash kv m r hrel
    obtain ⟨hrel', hress⟩ := ih _ _ hstep
    exact ⟨hrel', by simp [runKV, runFlat, hres, hress]⟩

/-- Worker state machine, spec section 4.4 / ThreadPool::workerLoop
(src/main.cpp:142-170): Running (between loop iterations, about to pop),
`processing r` (holding a dequeued request `r`, not yet applied to the
store), Terminated (popped the stream-end signal and left the loop). -/
inductive WStatus where
  | running
  | processing (r : Request)
  | terminated
deriving DecidableEq, Repr

/-- State of the whole system (ThreadPool + KVStore, src/main.cpp:122-175):
the shared work queue, the shared store, each worker's status, a ghost
log of the requests applied so far (in real-time application order, with
the value each GET observed), and a ghost list of every request
submitted so far. -/
structure Sys where
  queue : BQueue Request
  store : KVStore
  workers : List WStatus
  log : List (Request × Option (Option String))
  subs : List Request
deriving DecidableEq, Repr

/-- ThreadPool::submit, src/main.cpp:131-133: forwards to
BlockingQueue::push with no validation and no check of the stop flag;
the ghost `subs` field records the submission. -/
def Sys.submit (s : Sys) (r : Request) : Sys :=
  { s with queue := s.queue.push r, subs := s.subs ++ [r] }

/-- A scheduler's choice of the next atomic step: a producer submit, the
queue shutdown (first half of ThreadPool::shutdown, src/main.cpp:135-139),
worker `i` completing a pop, or worker `i` applying the request it
holds to the store. -/
inductive SAction where
  | submit (r : Request)
  | stopQ
  | pop (i : Nat)
  | apply (i : Nat)
deriving DecidableEq, Repr

/-- One atomic step of the interleaving semantics; `none` when the chosen
action is not enabled (the worker does not exist or is in the wrong
state, or its pop would block). A pop that returns an item moves the
worker to `processing`; a pop that returns stream-end terminates the
worker (the `while (queue.pop(req))` loop exits, src/main.cpp:144); an
apply performs the request's single store operation (atomic thanks to the
shard lock) and appends it to the ghost log. -/
def stepW (hash : String → Nat) (s : Sys) : SAction → Option Sys
  | .submit r => some (s.submit r)
  | .stopQ => some { s with queue := s.queue.shutdown }
  | .pop i =>
    match s.workers.get? i with
    | some WStatus.running =>
      match BQueue.pop s.queue with
      | some (some r, q') =>
        some { s with queue := q', workers := s.workers.set i (WStatus.processing r) }
      | some (none, q') =>
        some { s with queue := q', workers := s.workers.set i WStatus.terminated }
      | none => none
    | _ => none
  | .apply i =>
    match s.workers.get? i with
    | some (WStatus.processing r) =>
      some { s with
        store := (applyReq hash s.store r).1,
        workers := s.workers.set i WStatus.running,
        log := s.log ++ [(r, (applyReq hash s.store r).2)] }
    | _ => none

/-- One scheduler step, stuttering when the chosen action is not enabled
(a disabled action corresponds to a thread that is not scheduled or is
blocked, so the shared state does not change). -/
def stepOr (hash : String → Nat) (s : Sys) (a : SAction) : Sys :=
  (stepW hash s a).getD s

/-- Run a schedule: a list of scheduler choices, executed in order. -/
def runSched (hash : String → Nat) (σ : List SAction) (s : Sys) : Sys :=
  σ.foldl (stepOr hash) s

/-- Initial system: main (src/main.cpp:179-184) constructs the store with
`shardCount` empty shards and the pool with `workerCount` workers, all
in the running state, queue empty and not stopped. -/
def initSys (workerCount : Nat) (kv : KVStore) : Sys :=
  ⟨⟨[], false⟩, kv, List.replicate workerCount WStatus.running, [], []⟩

/-- The request a worker currently holds, if any. -/
def heldOf : WStatus → Option Request
  | WStatus.processing r => some r
  | _ => none

/-- The requests currently held by workers (popped but not yet applied). -/
def heldList (ws : List WStatus) : List Request :=
  ws.filterMap heldOf

/-- Conservation account: every submitted request is applied, queued, or
held, counted with multiplicity. -/
def accounted (s : Sys) : Multiset Request :=
  ↑(s.log.map Prod.fst) + ↑s.queue.items + ↑(heldList s.workers)

/-- All workers have left the worker loop; ThreadPool::shutdown
(src/main.cpp:135-139) returns exactly when this holds, since it joins
every worker. -/
def allTerminated (ws : List WStatus) : Prop :=
  ∀ w ∈ ws, w = WStatus.terminated

instance (ws : List WStatus) : Decidable (allTerminated ws) :=
  List.decidableBAll _ ws

theorem runSched_append (hash : String → Nat) (σ₁ σ₂ : List SAction) (s : Sys) :
    runSched hash (σ₁ ++ σ₂) s = runSched hash σ₂ (runSched hash σ₁ s) := by
  simp [runSched, List.foldl_append]

theorem runSched_preserve (hash : String → Nat) (P : Sys → Prop)
    (σ : List SAction) (s : Sys)
    (hstep : ∀ s' a, a ∈ σ → P s' → P (stepOr hash s' a)) (h : P s) :
    P (runSched hash σ s) := by
  induction σ generalizing s with
  | nil => exact h
  | cons a rest ih =>
    exact ih (stepOr hash s a)
      (fun s' b hb => hstep s' b (List.mem_cons_of_mem a hb))
      (hstep s a (List.mem_cons_self a rest) h)

theorem BQueue.pop_end_inv (q q' : BQueue T) (h : BQueue.pop q = some (none, q')) :
    q' = q ∧ q.items = [] ∧ q.stopped = true := by
  obtain ⟨items, stopped⟩ := q
  cases items with
  | nil =>
    cases stopped with
    | false => simp [BQueue.pop] at h
    | true =>
      have h' := Option.some.inj h
      have h2 : (⟨[], true⟩ : BQueue T) = q' := congrArg Prod.snd h'
      exact ⟨h2.symm, rfl, rfl⟩
  | cons x rest =>
    cases stopped <;> simp [BQueue.pop] at h

theorem BQueue.pop_item_inv (q q' : BQueue T) (x : T)
    (h : BQueue.pop q = some (some x, q')) :
    q.items = x :: q'.items ∧ q'.stopped = q.stopped := by
  obtain ⟨items, stopped⟩ := q
  cases items with
  | nil => cases stopped <;> simp [BQueue.pop] at h
  | cons y rest =>
    have h' := Option.some.inj h
    have h1 : (some y : Option T) = some x := congrArg Prod.fst h'
    have h2 : (⟨rest, stopped⟩ : BQueue T) = q' := congrArg Prod.snd h'
    subst h2
    obtain rfl : y = x := Option.some.inj h1
    exact ⟨rfl, rfl⟩

theorem mem_set_of_get? (ws : List α) (i : Nat) (w x : α)
    (hget : ws.get? i = some w) : x ∈ ws.set i x := by
  induction ws generalizing i with
  | nil => simp at hget
  | cons y rest ih =>
    cases i with
    | zero => exact List.mem_cons_self x rest
    | succ j => exact List.mem_cons_of_mem y (ih j hget)

theorem heldList_cons_none (x : WStatus) (l : List WStatus)
    (hx : heldOf x = none) : heldList (x :: l) = heldList l := by
  simp [heldList, List.filterMap_cons, hx]

theorem heldList_cons_some (x : WStatus) (l : List WStatus) (r : Request)
    (hx : heldOf x = some r) : heldList (x :: l) = r :: heldList l := by
  simp [heldList, List.filterMap_cons, hx]

theorem heldList_set_none (ws : List WStatus) (i : Nat) (w w' : WStatus)
    (hget : ws.get? i = some w) (hw : heldOf w = none) (hw' : heldOf w' = none) :
    heldList (ws.set i w') = heldList ws := by
  induction ws generalizing i with
  | nil => simp at hget
  | cons x rest ih =>
    cases i with
    | zero =>
      have hxw : x = w := Option.some.inj hget
      subst hxw
      show heldList (w' :: rest) = heldList (x :: rest)
      rw [heldList_cons_none _ _ hw', heldList_cons_none _ _ hw]
    | succ j =>
      have hget' : rest.get? j = some w := hget
      show heldList (x :: rest.set j w') = heldList (x :: rest)
      cases hx : heldOf x with
      | none => rw [heldList_cons_none _ _ hx, heldList_cons_none _ _ hx, ih j hget']
      | some y =>
        rw [heldList_cons_some _ _ y hx, heldList_cons_some _ _ y hx, ih j hget']

theorem heldList_set_take (ws : List WStatus) (i : Nat) (w w' : WStatus)
    (r : Request) (hget : ws.get? i = some w) (hw : heldOf w = none)
    (hw' : heldOf w' = some r) :
    (↑(heldList (ws.set i w')) : Multiset Request) = r ::ₘ ↑(heldList ws) := by
  induction ws generalizing i with
  | nil => simp at hget
  | cons x rest ih =>
    cases i with
    | zero =>
      have hxw : x = w := Option.some.inj hget
      subst hxw
      show (↑(heldList (w' :: rest)) : Multiset Request) = r ::ₘ ↑(heldList (x :: rest))
      rw [heldList_cons_some _ _ r hw', heldList_cons_none _ _ hw, Multiset.cons_coe]
    | succ j =>
      have hget' : rest.get? j = some w := hget
      show (↑(heldList (x :: rest.set j w')) : Multiset Request) =
        r ::ₘ ↑(heldList (x :: rest))
      cases hx : heldOf x with
      | none =>
        rw [heldList_cons_none _ _ hx, heldList_cons_none _ _ hx, ih j hget']
      | some y =>
        rw [heldList_cons_some _ _ y hx, heldList_cons_some _ _ y hx,
          ← Multiset.cons_coe, ← Multiset.cons_coe, ih j hget', Multiset.cons_swap]

theorem heldList_set_give (ws : List WStatus) (i : Nat) (w w' : WStatus)
    (r : Request) (hget : ws.get? i = some w) (hw : heldOf w = some r)
    (hw' : heldOf w' = none) :
    r ::ₘ (↑(heldList (ws.set i w')) : Multiset Request) = ↑(heldList ws) := by
  induction ws generalizing i with
  | nil => simp at hget
  | cons x rest ih =>
    cases i with
    | zero =>
      have hxw : x = w := Option.some.inj hget
      subst hxw
      show r ::ₘ (↑(heldList (w' :: rest)) : Multiset Request) = ↑(heldList (x :: rest))
      rw [heldList_cons_none _ _ hw', heldList_cons_some _ _ r hw, Multiset.cons_coe]
    | succ j =>
      have hget' : rest.get? j = some w := hget
      show r ::ₘ (↑(heldList (x :: rest.set j w')) : Multiset Request) =
        ↑(heldList (x :: rest))
      cases hx : heldOf x with
      | none =>
        rw [heldList_cons_none _ _ hx, heldList_cons_none _ _ hx, ih j hget']
      | some y =>
        rw [heldList_cons_some _ _ y hx, heldList_cons_some _ _ y hx,
          ← Multiset.cons_coe, ← Multiset.cons_coe, Multiset.cons_swap, ih j hget']

theorem heldList_eq_nil (ws : List WStatus) (h : allTerminated ws) :
    heldList ws = [] := by
  induction ws with
  | nil => rfl
  | cons x rest ih =>
    have hx : x = WStatus.terminated := h x (List.mem_cons_self x rest)
    subst hx
    rw [heldList_cons_none WStatus.terminated rest (by simp [heldOf])]
    exact ih (fun w hw => h w (List.mem_cons_of_mem _ hw))

theorem stepOr_accounted (hash : String → Nat) (s : Sys) (a : SAction)
    (h : accounted s = ↑s.subs) :
    accounted (stepOr hash s a) = ↑(stepOr hash s a).subs := by
  simp only [accounted] at h
  cases a with
  | submit r =>
    show accounted (s.submit r) = ↑(s.submit r).subs
    simp only [accounted, Sys.submit, BQueue.push]
    simp only [← Multiset.coe_add]
    rw [← h]
    abel
  | stopQ =>
    exact h
  | pop i =>
    cases hget : s.workers[i]? with
    | none =>
      simp only [stepOr, stepW, List.get?_eq_getElem?, hget, Option.getD, accounted]
      exact h
    | some w =>
      have hget' : s.workers.get? i = some w := by
        rw [List.get?_eq_getElem?]; exact hget
      cases w with
      | processing r =>
        simp only [stepOr, stepW, List.get?_eq_getElem?, hget, Option.getD, accounted]
        exact h
      | terminated =>
        simp only [stepOr, stepW, List.get?_eq_getElem?, hget, Option.getD, accounted]
        exact h
      | running =>
        cases hpop : BQueue.pop s.queue with
        | none =>
          simp only [stepOr, stepW, List.get?_eq_getElem?, hget, hpop, Option.getD, accounted]
          exact h
        | some pr =>
          obtain ⟨ro, q'⟩ := pr
          cases ro with
          | none =>
            obtain ⟨hq, hnil, hst⟩ := BQueue.pop_end_inv s.queue q' hpop
            subst hq
            have hheld := heldList_set_none s.workers i WStatus.running
              WStatus.terminated hget' (by simp [heldOf]) (by simp [heldOf])
            simp only [stepOr, stepW, List.get?_eq_getElem?, hget, hpop, Option.getD, accounted, hheld]
            exact h
          | some r =>
            obtain ⟨hitems, hst⟩ := BQueue.pop_item_inv s.queue q' r hpop
            have hheld := heldList_set_take s.workers i WStatus.running
              (WStatus.processing r) r hget' (by simp [heldOf]) (by simp [heldOf])
            simp only [stepOr, stepW, List.get?_eq_getElem?, hget, hpop, Option.getD, accounted, hheld]
            rw [← h, hitems]
            simp only [← Multiset.cons_coe, ← Multiset.singleton_add]
            abel
  | apply i =>
    cases hget : s.workers[i]? with
    | none =>
      simp only [stepOr, stepW, List.get?_eq_getElem?, hget, Option.getD, accounted]
      exact h
    | some w =>
      have hget' : s.workers.get? i = some w := by
        rw [List.get?_eq_getElem?]; exact hget
      cases w with
      | running =>
        simp only [stepOr, stepW, List.get?_eq_getElem?, hget, Option.getD, accounted]
        exact h
      | terminated =>
        simp only [stepOr, stepW, List.get?_eq_getElem?, hget, Option.getD, accounted]
        exact h
      | processing r =>
        have hheld := heldList_set_give s.workers i (WStatus.processing r)
          WStatus.running r hget' (by simp [heldOf]) (by simp [heldOf])
        simp only [stepOr, stepW, List.get?_eq_getElem?, hget, Option.getD, accounted, List.map_append,
          List.map_cons, List.map_nil]
        simp only [← Multiset.coe_add]
        rw [← h, ← hheld]
        simp only [Multiset.coe_singleton, ← Multiset.singleton_add]
        abel

/-- A log is a legal sequential history from `kv`: replaying it applies
each request in order and checks that the observation recorded for it is
exactly what the sequential semantics produces at that point; the result
is the final store, or `none` if some recorded observation disagrees. -/
def replay (hash : String → Nat) : KVStore → List (Request × Option (Option String)) → Option KVStore
  | kv, [] => some kv
  | kv, (r, res) :: rest =>
    if (applyReq hash kv r).2 = res then replay hash (applyReq hash kv r).1 rest
    else none

theorem replay_append_one (hash : String → Nat) (kv : KVStore)
    (l : List (Request × Option (Option String))) (r : Request)
    (res : Option (Option String)) (kvf : KVStore)
    (h : replay hash kv l = some kvf) (hres : (applyReq hash kvf r).2 = res) :
    replay hash kv (l ++ [(r, res)]) = some (applyReq hash kvf r).1 := by
  induction l generalizing kv with
  | nil =>
    have hkv : kv = kvf := Option.some.inj h
    subst hkv
    simp [replay, hres]
  | cons p rest ih =>
    obtain ⟨r₀, res₀⟩ := p
    simp only [replay] at h
    by_cases hc : (applyReq hash kv r₀).2 = res₀
    · rw [if_pos hc] at h
      simp only [List.cons_append, replay, if_pos hc]
      exact ih _ h
    · rw [if_neg hc] at h
      exact absurd h (by simp)

/-- The linearizability invariant: the ghost log is a legal sequential
history of the store, starting from the initial store `kv0`. -/
def LinInv (hash : String → Nat) (kv0 : KVStore) (s : Sys) : Prop :=
  replay hash kv0 s.log = some s.store

theorem stepOr_lin (hash : String → Nat) (kv0 : KVStore) (s : Sys) (a : SAction)
    (h : LinInv hash kv0 s) : LinInv hash kv0 (stepOr hash s a) := by
  cases a with
  | submit r => exact h
  | stopQ => exact h
  | pop i =>
    cases hget : s.workers[i]? with
    | none =>
      simp only [LinInv, stepOr, stepW, List.get?_eq_getElem?, hget, Option.getD]
      exact h
    | some w =>
      cases w with
      | processing r =>
        simp only [LinInv, stepOr, stepW, List.get?_eq_getElem?, hget, Option.getD]
        exact h
      | terminated =>
        simp only [LinInv, stepOr, stepW, List.get?_eq_getElem?, hget, Option.getD]
        exact h
      | running =>
        cases hpop : BQueue.pop s.queue with
        | none =>
          simp only [LinInv, stepOr, stepW, List.get?_eq_getElem?, hget, hpop,
            Option.getD]
          exact h
        | some pr =>
          obtain ⟨ro, q'⟩ := pr
          cases ro with
          | none =>
            simp only [LinInv, stepOr, stepW, List.get?_eq_getElem?, hget, hpop,
              Option.getD]
            exact h
          | some r =>
            simp only [LinInv, stepOr, stepW, List.get?_eq_getElem?, hget, hpop,
              Option.getD]
            exact h
  | apply i =>
    cases hget : s.workers[i]? with
    | none =>
      simp only [LinInv, stepOr, stepW, List.get?_eq_getElem?, hget, Option.getD]
      exact h
    | some w =>
      cases w with
      | running =>
        simp only [LinInv, stepOr, stepW, List.get?_eq_getElem?, hget, Option.getD]
        exact h
      | terminated =>
        simp only [LinInv, stepOr, stepW, List.get?_eq_getElem?, hget, Option.getD]
        exact h
      | processing r =>
        simp only [LinInv, stepOr, stepW, List.get?_eq_getElem?, hget, Option.getD]
        exact replay_append_one hash kv0 s.log r _ s.store h rfl

/-- Worker-thread actions: the steps taken inside workerLoop, as opposed
to producer submits and the shutdown signal. -/
def SAction.isWorker : SAction → Bool
  | .pop _ => true
  | .apply _ => true
  | .submit _ => false
  | .stopQ => false

theorem stepW_stuck (hash : String → Nat) (s : Sys) (a : SAction)
    (hterm : allTerminated s.workers) (ha : a.isWorker = true) :
    stepW hash s a = none := by
  cases a with
  | submit r => simp [SAction.isWorker] at ha
  | stopQ => simp [SAction.isWorker] at ha
  | pop i =>
    cases hget : s.workers[i]? with
    | none => simp [stepW, List.get?_eq_getElem?, hget]
    | some w =>
      have hmem : w ∈ s.workers := by
        apply List.get?_mem
        rw [List.get?_eq_getElem?]
        exact hget
      have hw : w = WStatus.terminated := hterm w hmem
      subst hw
      simp [stepW, List.get?_eq_getElem?, hget]
  | apply i =>
    cases hget : s.workers[i]? with
    | none => simp [stepW, List.get?_eq_getElem?, hget]
    | some w =>
      have hmem : w ∈ s.workers := by
        apply List.get?_mem
        rw [List.get?_eq_getElem?]
        exact hget
      have hw : w = WStatus.terminated := hterm w hmem
      subst hw
      simp [stepW, List.get?_eq_getElem?, hget]

theorem runSched_stuck (hash : String → Nat) (σ : List SAction) (s : Sys)
    (hterm : allTerminated s.workers) (hσ : ∀ a ∈ σ, a.isWorker = true) :
    runSched hash σ s = s := by
  induction σ with
  | nil => rfl
  | cons a rest ih =>
    have hstep : stepOr hash s a = s := by
      simp [stepOr, stepW_stuck hash s a hterm (hσ a (List.mem_cons_self a rest))]
    show runSched hash rest (stepOr hash s a) = s
    rw [hstep]
    exact ih (fun b hb => hσ b (List.mem_cons_of_mem a hb))

/-- If all workers have terminated, the queue must already be drained:
each worker's exit required seeing the queue stopped and empty, and
worker actions never add items. -/
def DrainInv (s : Sys) : Prop :=
  allTerminated s.workers → s.queue.items = []

theorem stepOr_drainInv (hash : String → Nat) (s : Sys) (a : SAction)
    (ha : a.isWorker = true) (h : DrainInv s) : DrainInv (stepOr hash s a) := by
  cases a with
  | submit r => simp [SAction.isWorker] at ha
  | stopQ => simp [SAction.isWorker] at ha
  | pop i =>
    cases hget : s.workers[i]? with
    | none =>
      simp only [stepOr, stepW, List.get?_eq_getElem?, hget, Option.getD]
      exact h
    | some w =>
      have hget' : s.workers.get? i = some w := by
        rw [List.get?_eq_getElem?]; exact hget
      cases w with
      | processing r =>
        simp only [stepOr, stepW, List.get?_eq_getElem?, hget, Option.getD]
        exact h
      | terminated =>
        simp only [stepOr, stepW, List.get?_eq_getElem?, hget, Option.getD]
        exact h
      | running =>
        cases hpop : BQueue.pop s.queue with
        | none =>
          simp only [stepOr, stepW, List.get?_eq_getElem?, hget, hpop, Option.getD]
          exact h
        | some pr =>
          obtain ⟨ro, q'⟩ := pr
          cases ro with
          | none =>
            obtain ⟨hq, hnil, hst⟩ := BQueue.pop_end_inv s.queue q' hpop
            subst hq
            simp only [stepOr, stepW, List.get?_eq_getElem?, hget, hpop,
              Option.getD, DrainInv]
            intro _
            exact hnil
          | some r =>
            simp only [stepOr, stepW, List.get?_eq_getElem?, hget, hpop,
              Option.getD, DrainInv]
            intro hterm
            have hmem := mem_set_of_get? s.workers i WStatus.running
              (WStatus.processing r) hget'
            have := hterm _ hmem
            simp at this
  | apply i =>
    cases hget : s.workers[i]? with
    | none =>
      simp only [stepOr, stepW, List.get?_eq_getElem?, hget, Option.getD]
      exact h
    | some w =>
      have hget' : s.workers.get? i = some w := by
        rw [List.get?_eq_getElem?]; exact hget
      cases w with
      | running =>
        simp only [stepOr, stepW, List.get?_eq_getElem?, hget, Option.getD]
        exact h
      | terminated =>
        simp only [stepOr, stepW, List.get?_eq_getElem?, hget, Option.getD]
        exact h
      | processing r =>
        simp only [stepOr, stepW, List.get?_eq_getElem?, hget, Option.getD, DrainInv]
        intro hterm
        have hmem := mem_set_of_get? s.workers i (WStatus.processing r)
          WStatus.running hget'
        have := hterm _ hmem
        simp at this

theorem stepOr_subs_worker (hash : String → Nat) (s : Sys) (a : SAction)
    (ha : a.isWorker = true) : (stepOr hash s a).subs = s.subs := by
  cases a with
  | submit r => simp [SAction.isWorker] at ha
  | stopQ => simp [SAction.isWorker] at ha
  | pop i =>
    cases hget : s.workers[i]? with
    | none => simp only [stepOr, stepW, List.get?_eq_getElem?, hget, Option.getD]
    | some w =>
      cases w with
      | processing r =>
        simp only [stepOr, stepW, List.get?_eq_getElem?, hget, Option.getD]
      | terminated =>
        simp only [stepOr, stepW, List.get?_eq_getElem?, hget, Option.getD]
      | running =>
        cases hpop : BQueue.pop s.queue with
        | none =>
          simp only [stepOr, stepW, List.get?_eq_getElem?, hget, hpop, Option.getD]
        | some pr =>
          obtain ⟨ro, q'⟩ := pr
          cases ro with
          | none =>
            simp only [stepOr, stepW, List.get?_eq_getElem?, hget, hpop, Option.getD]
          | some r =>
            simp only [stepOr, stepW, List.get?_eq_getElem?, hget, hpop, Option.getD]
  | apply i =>
    cases hget : s.workers[i]? with
    | none => simp only [stepOr, stepW, List.get?_eq_getElem?, hget, Option.getD]
    | some w =>
      cases w with
      | running =>
        simp only [stepOr, stepW, List.get?_eq_getElem?, hget, Option.getD]
      | terminated =>
        simp only [stepOr, stepW, List.get?_eq_getElem?, hget, Option.getD]
      | processing r =>
        simp only [stepOr, stepW, List.get?_eq_getElem?, hget, Option.getD]

/-- Stand-in for `std::hash<std::string>` (src/main.cpp:115), which is
implementation-defined; the general theorems are parameterised over the
hash, so only a concrete deterministic function is needed to evaluate
the reference scenario. -/
def strHash (s : String) : Nat :=
  s.data.foldl (fun h c => h * 131 + c.toNat) 5381

/-- The fixed request sequence produced in main, src/main.cpp:187-192. -/
def reqs6 : List Request :=
  [⟨OpType.SET, "a", "1"⟩, ⟨OpType.SET, "b", "2"⟩, ⟨OpType.GET, "a", ""⟩,
   ⟨OpType.DEL, "a", ""⟩, ⟨OpType.GET, "a", ""⟩, ⟨OpType.GET, "b", ""⟩]

/-- The system as constructed by main, src/main.cpp:180-184:
NUM_SHARDS = 4, NUM_WORKERS = 2. -/
def mainInit : Sys := initSys 2 (mkStore 4)

/-- The system right after main has submitted all six requests and
ThreadPool::shutdown has signalled the queue (src/main.cpp:187-194);
what remains is the workers draining the queue until both terminate. -/
def mainSubmitted : Sys :=
  runSched strHash (reqs6.map SAction.submit ++ [SAction.stopQ]) mainInit

/-- A schedule in which worker 0 fully processes each request before the
next pop (equivalent to a single-worker drain). -/
def seqSched : List SAction :=
  [.pop 0, .apply 0, .pop 0, .apply 0, .pop 0, .apply 0, .pop 0, .apply 0,
   .pop 0, .apply 0, .pop 0, .apply 0, .pop 0, .pop 1]

/-- A legal schedule in which worker 0 pops Set("a","1") first but is
delayed, worker 1 processes all five remaining requests, and worker 0
applies Set("a","1") last. -/
def raceSched : List SAction :=
  [.pop 0, .pop 1, .apply 1, .pop 1, .apply 1, .pop 1, .apply 1, .pop 1,
   .apply 1, .pop 1, .apply 1, .apply 0, .pop 0, .pop 1]

/-- The error thrown by `std::thread::join` on a thread that is not
joinable (std::system_error with invalid_argument). -/
inductive JoinErr where
  | sysErr
deriving DecidableEq, Repr

/-- ThreadPool state relevant to repeated shutdown, src/main.cpp:135-139
and 173: the queue plus, for each worker's `std::thread` object, whether
it is still joinable (`join` consumes joinability; a second `join`
throws). The drain/termination behaviour itself is modelled by `Sys`. -/
structure PoolJ where
  queue : BQueue Request
  joinable : List Bool
deriving DecidableEq, Repr

/-- The `for (auto& t : workers) t.join();` loop of ThreadPool::shutdown,
src/main.cpp:137-138: joins each thread in order; a thread that is no
longer joinable makes `join` throw std::system_error. -/
def joinAll : List Bool → Except JoinErr (List Bool)
  | [] => .ok []
  | b :: bs =>
    if b then
      match joinAll bs with
      | .ok bs' => .ok (false :: bs')
      | .error e => .error e
    else .error JoinErr.sysErr

/-- ThreadPool::shutdown, src/main.cpp:135-139: signal the queue, then
join every worker thread. -/
def poolShutdown (p : PoolJ) : Except JoinErr PoolJ :=
  match joinAll p.joinable with
  | .ok js => .ok ⟨p.queue.shutdown, js⟩
  | .error e => .error e

theorem joinAll_ok (bs bs' : List Bool) (h : joinAll bs = Except.ok bs') :
    bs' = List.replicate bs.length false := by
  induction bs generalizing bs' with
  | nil => simpa [joinAll] using (Except.ok.inj h).symm
  | cons b rest ih =>
    cases b with
    | false => simp [joinAll] at h
    | true =>
      simp only [joinAll, if_pos] at h
      cases hj : joinAll rest with
      | error e => rw [hj] at h; exact absurd h (by simp)
      | ok bs'' =>
        rw [hj] at h
        have : false :: bs'' = bs' := Except.ok.inj h
        rw [← this, ih bs'' hj]
        rfl

theorem applyReq_other_key (hash : String → Nat) (kv : KVStore) (r : Request)
    (k : String) (h : 0 < kv.shards.length) (hk : r.key ≠ k) :
    (applyReq hash kv r).1.get hash k = kv.get hash k ∧
      0 < (applyReq hash kv r).1.shards.length := by
  cases htype : r.type with
  | GET => exact ⟨by simp [applyReq, htype], by simpa [applyReq, htype] using h⟩
  | SET =>
    refine ⟨?_, by simpa [applyReq, htype, KVStore.length_set] using h⟩
    simpa [applyReq, htype] using
      KVStore.get_set_other_key hash kv r.key r.value k h (Ne.symm hk)
  | DEL =>
    refine ⟨?_, by simpa [applyReq, htype, KVStore.length_del] using h⟩
    simpa [applyReq, htype] using KVStore.get_del_other_key hash kv r.key k h (Ne.symm hk)

theorem runKV_other_keys (hash : String → Nat) (ops : List Request)
    (kv : KVStore) (k : String) (h : 0 < kv.shards.length)
    (hops : ∀ r ∈ ops, r.key ≠ k) :
    (runKV hash ops kv).1.get hash k = kv.get hash k := by
  induction ops generalizing kv with
  | nil => rfl
  | cons r rest ih =>
    obtain ⟨hpres, hpos⟩ :=
      applyReq_other_key hash kv r k h (hops r (List.mem_cons_self r rest))
    show (runKV hash rest (applyReq hash kv r).1).1.get hash k = kv.get hash k
    rw [ih _ hpos (fun r' hr' => hops r' (List.mem_cons_of_mem r hr')), hpres]

theorem popSeq_stopped (l : List T) :
    popSeq l.length (⟨l, true⟩ : BQueue T) = (l, ⟨[], true⟩) := by
  induction l with
  | nil => rfl
  | cons x rest ih => simp [popSeq, BQueue.pop, ih]

theorem runQ_account (acts : List (QAct T)) (q : BQueue T) :
    (runQ acts q).2 ++ (runQ acts q).1.items = q.items ++ pushesOf acts := by
  induction acts generalizing q with
  | nil => simp [runQ, pushesOf]
  | cons a rest ih =>
    cases a with
    | push x =>
      show (runQ rest (q.push x)).2 ++ (runQ rest (q.push x)).1.items =
        q.items ++ pushesOf (QAct.push x :: rest)
      rw [ih (q.push x)]
      simp [BQueue.push, pushesOf]
    | stop =>
      show (runQ rest q.shutdown).2 ++ (runQ rest q.shutdown).1.items =
        q.items ++ pushesOf (QAct.stop :: rest)
      rw [ih q.shutdown]
      simp [BQueue.shutdown, pushesOf]
    | pop =>
      obtain ⟨items, stopped⟩ := q
      cases items with
      | nil =>
        cases stopped with
        | false =>
          show (runQ rest ⟨[], false⟩).2 ++ (runQ rest ⟨[], false⟩).1.items =
            [] ++ pushesOf (QAct.pop :: rest)
          rw [ih ⟨[], false⟩]
          simp [pushesOf]
        | true =>
          show (runQ rest ⟨[], true⟩).2 ++ (runQ rest ⟨[], true⟩).1.items =
            [] ++ pushesOf (QAct.pop :: rest)
          rw [ih ⟨[], true⟩]
          simp [pushesOf]
      | cons y tl =>
        show (y :: (runQ rest ⟨tl, stopped⟩).2) ++ (runQ rest ⟨tl, stopped⟩).1.items =
          (y :: tl) ++ pushesOf (QAct.pop :: rest)
        rw [List.cons_append, ih ⟨tl, stopped⟩]
        simp [pushesOf]

/-- C2: get-after-set postcondition. After `set(k, v)` — any value `v`,
the empty string included — a `get(k)` with no intervening operation on
`k` (operations on other keys may intervene) returns `some v`; the empty
string is stored and returned as `some ""`, which is distinct from the
absent result `none`. -/
theorem getAfterSet (hash : String → Nat) (kv : KVStore) (k v : String)
    (ops : List Request) (h : 0 < kv.shards.length)
    (hops : ∀ r ∈ ops, r.key ≠ k) :
    (runKV hash ops (kv.set hash k v)).1.get hash k = some v ∧
      (kv.set hash k "").get hash k = some "" ∧
      (some "" : Option String) ≠ none := by
  refine ⟨?_, KVStore.get_set_same_key hash kv k "" h, by simp⟩
  rw [runKV_other_keys hash ops (kv.set hash k v) k
    (by simpa [KVStore.length_set] using h) hops]
  exact KVStore.get_set_same_key hash kv k v h

/-- C2 witness: the theorem instantiated at a 4-shard store, key "a",
value "1", with an intervening Set on the different key "b". -/
theorem getAfterSet_witness :
    0 < (mkStore 4).shards.length ∧
      (runKV strHash [⟨OpType.SET, "b", "9"⟩]
          ((mkStore 4).set strHash "a" "1")).1.get strHash "a" = some "1" ∧
      ((mkStore 4).set strHash "a" "").get strHash "a" = some "" ∧
      (some "" : Option String) ≠ none := by
  refine ⟨by decide, ?_⟩
  have h := getAfterSet strHash (mkStore 4) "a" "1" [⟨OpType.SET, "b", "9"⟩]
    (by decide) (by decide)
  exact ⟨h.1, h.2.1, h.2.2⟩

/-- C3: delete and absent-key semantics. `delete(k)` removes `k`
(afterwards `get(k)` is absent); deleting an absent key is a successful
no-op that leaves the store literally unchanged; and `get` on a missing
key returns the defined absent result `none` (in particular on a fresh
store of any size) rather than failing — all three operations are total
functions with no error outcome. -/
theorem deleteAbsent (hash : String → Nat) (kv : KVStore) (k : String)
    (h : 0 < kv.shards.length) :
    (kv.del hash k).get hash k = none ∧
      (kv.get hash k = none → kv.del hash k = kv) ∧
      (∀ n : Nat, (mkStore n).get hash k = none) := by
  exact ⟨KVStore.get_del_same_key hash kv k h,
    fun hnone => KVStore.del_absent_id hash kv k h hnone,
    fun n => KVStore.get_mkStore hash n k⟩

/-- C3 witness: deleting the absent key "y" from a store holding only
"x" yields an absent get and leaves the store unchanged. -/
theorem deleteAbsent_witness :
    0 < ((mkStore 2).set strHash "x" "1").shards.length ∧
      (((mkStore 2).set strHash "x" "1").del strHash "y").get strHash "y" = none ∧
      ((mkStore 2).set strHash "x" "1").del strHash "y" =
        (mkStore 2).set strHash "x" "1" ∧
      (mkStore 3).get strHash "y" = none := by
  have h := deleteAbsent strHash ((mkStore 2).set strHash "x" "1") "y" (by decide)
  exact ⟨by decide, h.1, h.2.1 (by decide), h.2.2 3⟩

/-- C10: sharding transparency. For every shard count n ≥ 1, every hash
function, and every sequence of operations applied sequentially, the
sharded KVStore produces exactly the observations of a single flat
key-to-value map and ends in an equivalent state (equal `get` on every
key): the hash-mod-n partitioning is invisible to the caller. -/
theorem shardingTransparency (hash : String → Nat) (n : Nat)
    (ops : List Request) (h : 0 < n) :
    (runKV hash ops (mkStore n)).2 = (runFlat ops []).2 ∧
      ∀ k : String,
        (runKV hash ops (mkStore n)).1.get hash k = flatGet (runFlat ops []).1 k := by
  have hrel : StoreRel hash (mkStore n) [] := by
    refine ⟨by simpa [mkStore] using h, fun k => ?_⟩
    rw [KVStore.get_mkStore]
    rfl
  obtain ⟨⟨_, hagree⟩, hres⟩ := runKV_rel hash ops (mkStore n) [] hrel
  exact ⟨hres, hagree⟩

/-- C10 witness: a 3-shard store and the flat map agree on a mixed
workload, both in observations and in the final values of "a" and "b". -/
theorem shardingTransparency_witness :
    0 < 3 ∧
      (runKV strHash
          [⟨OpType.SET, "a", "1"⟩, ⟨OpType.SET, "b", "2"⟩, ⟨OpType.GET, "a", ""⟩,
           ⟨OpType.DEL, "a", ""⟩, ⟨OpType.GET, "a", ""⟩] (mkStore 3)).2 =
        (runFlat
          [⟨OpType.SET, "a", "1"⟩, ⟨OpType.SET, "b", "2"⟩, ⟨OpType.GET, "a", ""⟩,
           ⟨OpType.DEL, "a", ""⟩, ⟨OpType.GET, "a", ""⟩] []).2 ∧
      (runKV strHash
          [⟨OpType.SET, "a", "1"⟩, ⟨OpType.SET, "b", "2"⟩, ⟨OpType.GET, "a", ""⟩,
           ⟨OpType.DEL, "a", ""⟩, ⟨OpType.GET, "a", ""⟩] (mkStore 3)).1.get strHash "b" =
        flatGet (runFlat
          [⟨OpType.SET, "a", "1"⟩, ⟨OpType.SET, "b", "2"⟩, ⟨OpType.GET, "a", ""⟩,
           ⟨OpType.DEL, "a", ""⟩, ⟨OpType.GET, "a", ""⟩] []).1 "b" := by
  have h := shardingTransparency strHash 3
    [⟨OpType.SET, "a", "1"⟩, ⟨OpType.SET, "b", "2"⟩, ⟨OpType.GET, "a", ""⟩,
     ⟨OpType.DEL, "a", ""⟩, ⟨OpType.GET, "a", ""⟩] (by decide)
  exact ⟨by decide, h.1, h.2 "b"⟩

/-- C4: queue stream-end semantics. A pop on a non-empty queue returns
the head (whether or not the queue is stopped); a pop returns the
stream-end signal exactly in the stopped-and-empty state (on an empty
non-stopped queue it blocks instead, modelled by the `none` outer
result); every item present when shutdown is observed is delivered, in
order, by the following pops before stream-end is first returned; and
the state at stream-end is itself stopped-and-empty, so every subsequent
pop returns stream-end again immediately. -/
theorem queueStreamEnd (T : Type) (x : T) (rest : List T) (st : Bool)
    (l : List T) :
    BQueue.pop (⟨x :: rest, st⟩ : BQueue T) = some (some x, ⟨rest, st⟩) ∧
      BQueue.pop (⟨[], true⟩ : BQueue T) = some (none, ⟨[], true⟩) ∧
      BQueue.pop (⟨[], false⟩ : BQueue T) = none ∧
      popSeq l.length (BQueue.shutdown (⟨l, st⟩ : BQueue T)) = (l, ⟨[], true⟩) := by
  exact ⟨rfl, rfl, rfl, popSeq_stopped l⟩

/-- C5: FIFO delivery. Running any interleaving of pushes, pops and the
stop signal from an empty queue, the sequence of dequeued items is
exactly a prefix of the sequence of pushed items (in push order):
dequeues happen at the head in append order, so if A is pushed before B
and both are dequeued, A is dequeued no later than B, and the items not
yet dequeued are the remaining suffix, still in order. -/
theorem fifoDelivery (T : Type) (acts : List (QAct T)) :
    (runQ acts (⟨[], false⟩ : BQueue T)).2 ++
        (runQ acts (⟨[], false⟩ : BQueue T)).1.items = pushesOf acts ∧
      (runQ acts (⟨[], false⟩ : BQueue T)).2 =
        (pushesOf acts).take (runQ acts (⟨[], false⟩ : BQueue T)).2.length := by
  have h := runQ_account acts (⟨[], false⟩ : BQueue T)
  simp only [List.nil_append] at h
  refine ⟨h, ?_⟩
  rw [← h]
  exact (List.take_left _ _).symm

/-- C9: per-shard linearizability. Each store operation executes
atomically under its shard's lock, so every interleaved execution of the
worker pool yields an application log that is a legal sequential history
of the sequential map semantics — the total order is the real-time order
of the (atomic) lock-holding sections, each operation observes the
cumulative effect of all operations before it in that order, and
replaying the log reproduces the final store. Moreover GET does not
modify the store (its shared lock admits concurrent readers), so
concurrently running gets cannot affect one another's results. -/
theorem perShardLinearizability (hash : String → Nat) (W : Nat)
    (kv0 : KVStore) (σ : List SAction) :
    replay hash kv0 (runSched hash σ (initSys W kv0)).log =
        some (runSched hash σ (initSys W kv0)).store ∧
      ∀ (kv : KVStore) (k v : String),
        applyReq hash kv ⟨OpType.GET, k, v⟩ = (kv, some (kv.get hash k)) := by
  refine ⟨?_, fun kv k v => rfl⟩
  exact runSched_preserve hash (LinInv hash kv0) σ (initSys W kv0)
    (fun s' a _ h => stepOr_lin hash kv0 s' a h) rfl

/-- C1 counterexample: a legal schedule of the reference workload
(shardCount = 4, workerCount = 2, the six requests of main) in which
worker 0 pops Set("a","1") first but applies it only after worker 1 has
processed the five remaining requests. The run is complete — both
workers terminated, all six requests applied — yet the final store has
get("a") = some "1", not absent: the claimed final state is not
guaranteed over all interleavings. -/
theorem drainOnShutdown_counterexample :
    allTerminated (runSched strHash raceSched mainSubmitted).workers ∧
      (↑((runSched strHash raceSched mainSubmitted).log.map Prod.fst) :
          Multiset Request) = ↑reqs6 ∧
      (runSched strHash raceSched mainSubmitted).store.get strHash "a" = some "1" := by
  exact ⟨by decide, by decide, by decide⟩

/-- C1 (amended): drain-on-shutdown for the reference workload. For
every worker schedule after the six submissions and the queue shutdown,
if both workers have terminated (which is what ThreadPool::shutdown
waits for), then every submitted request has been applied exactly once
(the applied log is the six requests, as a multiset) and the queue is
empty — no request is dropped or left unprocessed. The claimed final
state get("a") = absent, get("b") = "2" does hold for schedules that
apply each request before the next pop (e.g. the single-worker-style
schedule seqSched), but not for every schedule (see the
counterexample). -/
theorem drainOnShutdown (σ : List SAction)
    (hσ : ∀ a ∈ σ, a.isWorker = true)
    (hterm : allTerminated (runSched strHash σ mainSubmitted).workers) :
    (↑((runSched strHash σ mainSubmitted).log.map Prod.fst) :
        Multiset Request) = ↑reqs6 ∧
      (runSched strHash σ mainSubmitted).queue.items = [] ∧
      (runSched strHash seqSched mainSubmitted).store.get strHash "a" = none ∧
      (runSched strHash seqSched mainSubmitted).store.get strHash "b" = some "2" ∧
      allTerminated (runSched strHash seqSched mainSubmitted).workers := by
  have hAcc : accounted (runSched strHash σ mainSubmitted) =
      ↑(runSched strHash σ mainSubmitted).subs :=
    runSched_preserve strHash (fun s => accounted s = ↑s.subs) σ mainSubmitted
      (fun s' a _ h => stepOr_accounted strHash s' a h) (by decide)
  have hDrain : DrainInv (runSched strHash σ mainSubmitted) :=
    runSched_preserve strHash DrainInv σ mainSubmitted
      (fun s' a ha h => stepOr_drainInv strHash s' a (hσ a ha) h)
      (by intro h0; exact absurd (h0 WStatus.running (by decide)) (by decide))
  have hsubs : (runSched strHash σ mainSubmitted).subs = reqs6 :=
    runSched_preserve strHash (fun s => s.subs = reqs6) σ mainSubmitted
      (fun s' a ha h => by
        show (stepOr strHash s' a).subs = reqs6
        rw [stepOr_subs_worker strHash s' a (hσ a ha)]
        exact h)
      (by decide)
  have hitems := hDrain hterm
  have hheld := heldList_eq_nil _ hterm
  refine ⟨?_, hitems, by decide, by decide, by decide⟩
  have hfin := hAcc
  simp only [accounted, hitems, hheld, hsubs] at hfin
  simpa using hfin

/-- C1 witness: the amended theorem instantiated at the sequential
schedule, whose run is terminal. -/
theorem drainOnShutdown_witness :
    (↑((runSched strHash seqSched mainSubmitted).log.map Prod.fst) :
        Multiset Request) = ↑reqs6 ∧
      (runSched strHash seqSched mainSubmitted).queue.items = [] ∧
      (runSched strHash seqSched mainSubmitted).store.get strHash "a" = none ∧
      (runSched strHash seqSched mainSubmitted).store.get strHash "b" = some "2" ∧
      allTerminated (runSched strHash seqSched mainSubmitted).workers :=
  drainOnShutdown seqSched (by decide) (by decide)

/-- C6 counterexample: a pool with two (joinable) worker threads.
The first shutdown succeeds; the second shutdown reaches
`workers[0].join()` on an already-joined (non-joinable) thread and
throws std::system_error instead of returning — so calling shutdown
twice is not the same as calling it once, and the second call throws. -/
theorem idempotentShutdown_counterexample :
    Except.bind (poolShutdown ⟨⟨[], false⟩, [true, true]⟩) poolShutdown =
      Except.error JoinErr.sysErr := by
  rfl

/-- C6 (amended): BlockingQueue::shutdown is idempotent — a second call
leaves the queue in exactly the state of the first (stopped flag set,
items untouched) — but ThreadPool::shutdown is safe to call exactly once
per pool: for any pool with at least one worker whose shutdown
succeeded, a second shutdown throws std::system_error from joining an
already-joined thread (it does not deadlock: the failure is an
exception, and the queue and store are not touched further). -/
theorem idempotentShutdown (T : Type) (q : BQueue T) (p p' : PoolJ)
    (hw : p.joinable ≠ []) (hok : poolShutdown p = Except.ok p') :
    BQueue.shutdown (BQueue.shutdown q) = BQueue.shutdown q ∧
      poolShutdown p' = Except.error JoinErr.sysErr := by
  refine ⟨rfl, ?_⟩
  cases hj : joinAll p.joinable with
  | error e =>
    rw [poolShutdown, hj] at hok
    exact absurd hok (by simp)
  | ok js =>
    rw [poolShutdown, hj] at hok
    have hp' := Except.ok.inj hok
    subst hp'
    have hjs := joinAll_ok p.joinable js hj
    cases hn : p.joinable with
    | nil => exact absurd hn hw
    | cons b bs =>
      rw [hn] at hjs
      show poolShutdown ⟨_, js⟩ = Except.error JoinErr.sysErr
      rw [hjs]
      rfl

/-- C6 witness: the amended theorem instantiated at a two-worker pool;
the state after the first shutdown has both threads non-joinable, and
the second shutdown errors. -/
theorem idempotentShutdown_witness :
    BQueue.shutdown (BQueue.shutdown (⟨[], false⟩ : BQueue Nat)) =
        BQueue.shutdown (⟨[], false⟩ : BQueue Nat) ∧
      poolShutdown ⟨⟨[], true⟩, [false, false]⟩ = Except.error JoinErr.sysErr :=
  idempotentShutdown Nat ⟨[], false⟩ ⟨⟨[], false⟩, [true, true]⟩
    ⟨⟨[], true⟩, [false, false]⟩ (by decide) (by rfl)

/-- The malformed request of the C7 scenario: a Get with empty key. -/
def emptyKeyGet : Request := ⟨OpType.GET, "", ""⟩

/-- C7 counterexample: submitting Get with empty key to a fresh
4-shard, 2-worker system enqueues the request — ThreadPool::submit
performs no validation, so the malformed request is not rejected and
not kept out of the queue. -/
theorem invalidRequest_counterexample :
    (Sys.submit (initSys 2 (mkStore 4)) emptyKeyGet).queue.items = [emptyKeyGet] := by
  rfl

/-- C7 (amended): there is no InvalidRequest rejection. `submit`
unconditionally appends every request — empty key included — to the
queue, and such a request does reach a worker and is processed like any
other: in a one-worker system that submits Get("") and shuts down, the
worker pops and applies it, logging the observation `none` (the empty
string is an ordinary absent map key; nothing fails), and terminates. -/
theorem invalidRequestAccepted (s : Sys) (r : Request) :
    (Sys.submit s r).queue.items = s.queue.items ++ [r] ∧
      (runSched strHash [SAction.stopQ, SAction.pop 0, SAction.apply 0, SAction.pop 0]
          (Sys.submit (initSys 1 (mkStore 4)) emptyKeyGet)).log =
        [(emptyKeyGet, some none)] ∧
      allTerminated
        (runSched strHash [SAction.stopQ, SAction.pop 0, SAction.apply 0, SAction.pop 0]
          (Sys.submit (initSys 1 (mkStore 4)) emptyKeyGet)).workers := by
  exact ⟨rfl, by decide, by decide⟩

/-- The system of the C8 scenario: one worker, queue shut down, the
worker has observed stream-end and terminated (shutdown has returned). -/
def s8 : Sys := runSched strHash [SAction.stopQ, SAction.pop 0] (initSys 1 (mkStore 4))

/-- A request submitted after shutdown has completed. -/
def postReq : Request := ⟨OpType.SET, "x", "9"⟩

/-- C8 counterexample: submitting after shutdown has completed is not
rejected — `submit` returns normally (it is a total function with no
error result) and the request is enqueued on the stopped queue while
every worker is already terminated and the applied log stays empty: the
submission is silently dropped, exactly what the claim rules out. -/
theorem postShutdown_counterexample :
    allTerminated (Sys.submit s8 postReq).workers ∧
      (Sys.submit s8 postReq).queue.items = [postReq] ∧
      (Sys.submit s8 postReq).queue.stopped = true ∧
      (Sys.submit s8 postReq).log = [] := by
  exact ⟨by decide, by decide, by decide, by decide⟩

/-- C8 (amended): a post-shutdown submission is accepted, not rejected:
it is enqueued unconditionally (and does not block, submit being a total
step), but with all workers terminated no worker action can fire any
more — every subsequent worker schedule leaves the system unchanged, so
the request is never processed and never reaches the store or the log. -/
theorem postShutdownAccepted (hash : String → Nat) (s : Sys) (r : Request)
    (σ : List SAction) (hterm : allTerminated s.workers)
    (hσ : ∀ a ∈ σ, a.isWorker = true) :
    (Sys.submit s r).queue.items = s.queue.items ++ [r] ∧
      runSched hash σ (Sys.submit s r) = Sys.submit s r ∧
      (runSched hash σ (Sys.submit s r)).log = s.log := by
  have hterm' : allTerminated (Sys.submit s r).workers := hterm
  have hstuck := runSched_stuck hash σ (Sys.submit s r) hterm' hσ
  exact ⟨rfl, hstuck, by rw [hstuck]; rfl⟩

/-- C8 witness: the amended theorem instantiated at the concrete
post-shutdown system `s8`, the request Set("x","9"), and a two-action
worker schedule. -/
theorem postShutdownAccepted_witness :
    (Sys.submit s8 postReq).queue.items = s8.queue.items ++ [postReq] ∧
      runSched strHash [SAction.pop 0, SAction.apply 0] (Sys.submit s8 postReq) =
        Sys.submit s8 postReq ∧
      (runSched strHash [SAction.pop 0, SAction.apply 0]
          (Sys.submit s8 postReq)).log = s8.log :=
  postShutdownAccepted strHash s8 postReq [SAction.pop 0, SAction.apply 0]
    (by decide) (by decide)
